import Mathlib

/-!
Verification of the pinyin_anki flashcard engine.

Strings are modelled as List Char (one entry per Unicode code point, matching
Python's view of str). Python functions that can raise are modelled as
Option-valued functions, with none standing for an uncaught exception.
-/

namespace PinyinAnki

/-! ### Python string primitives -/

/-- Whitespace as recognised by Python's str.strip and the regex class \s
(ASCII fragment; the algorithms below treat all whitespace uniformly). -/
def isSpace (c : Char) : Bool :=
  c == ' ' || c == '\t' || c == '\n' || c == '\r' || c == '\x0b' || c == '\x0c'

/-- Python substring test (the "in" operator): pat occurs contiguously in s.
The empty pattern occurs in every string. -/
def containsSub (pat : List Char) : List Char → Bool
  | [] => pat.isEmpty
  | c :: rest => pat.isPrefixOf (c :: rest) || containsSub pat rest

/-- Python s.replace(pat, rep, 1): replace the leftmost occurrence of pat by
rep; with an empty pat, rep is inserted at the front; if pat does not occur,
s is returned unchanged. -/
def replaceFirst (s pat rep : List Char) : List Char :=
  match s with
  | [] => if pat.isEmpty then rep else []
  | c :: rest =>
    if pat.isPrefixOf (c :: rest) then rep ++ (c :: rest).drop pat.length
    else c :: replaceFirst rest pat rep

/-- Index of the first element satisfying p (Python str.index via a scan). -/
def findIdx (p : Char → Bool) : List Char → Option Nat
  | [] => none
  | c :: rest => if p c then some 0 else (findIdx p rest).map (· + 1)

/-- Python line.split of a line on the tab character: no collapsing, the
empty string splits to one empty field. -/
def splitTab : List Char → List (List Char)
  | [] => [[]]
  | c :: rest =>
    match splitTab rest with
    | [] => [[]]
    | h :: t => if c == '\t' then [] :: h :: t else (c :: h) :: t

/-- Python (tab).join(fields). -/
def tabJoin : List (List Char) → List Char
  | [] => []
  | [f] => f
  | f :: fs => f ++ '\t' :: tabJoin fs

/-- Drop leading whitespace (Python str.lstrip). -/
def trimLeft (l : List Char) : List Char := l.dropWhile isSpace

/-- Drop trailing whitespace (Python str.rstrip). -/
def trimRight (l : List Char) : List Char := (trimLeft l.reverse).reverse

/-- Python str.strip(): drop whitespace at both ends. -/
def strip (l : List Char) : List Char := trimRight (trimLeft l)

/-! ### add-pinyin.py: AnkiNote, CardTypeHeuristics, ContentGenerator -/

/-- The 17-field note of add-pinyin.py (class AnkiNote, lines 37-63):
8 original input fields, 9 derived fields, and the card-type selection. -/
structure AnkiNote where
  word : List Char := []
  definitions_1 : List Char := []
  definitions_2 : List Char := []
  example_sentence : List Char := []
  sentence_translation : List Char := []
  word_audio : List Char := []
  sentence_audio : List Char := []
  image : List Char := []
  cloze_sentence : List Char := []
  cloze_sentence_pinyin : List Char := []
  scrambled_sentence : List Char := []
  scrambled_sentence_pinyin : List Char := []
  reconstructed_sentence : List Char := []
  reconstructed_sentence_pinyin : List Char := []
  prompt : List Char := []
  word_pinyin : List Char := []
  example_sentence_pinyin : List Char := []
  selected_card_types : List Nat := []
deriving DecidableEq

/-- CardTypeHeuristics.FUNCTION_WORDS (add-pinyin.py lines 70-74). -/
def FUNCTION_WORDS : List (List Char) :=
  ["的".data, "了".data, "在".data, "是".data, "有".data, "和".data, "与".data,
   "或".data, "但".data, "而".data, "因为".data, "所以".data, "如果".data,
   "虽然".data, "但是".data, "然而".data, "不过".data, "可是".data, "却".data,
   "还是".data, "就是".data, "只是".data, "那么".data, "这么".data, "怎么".data,
   "为什么".data, "什么".data, "哪里".data, "哪儿".data, "怎样".data, "多少".data]

/-- CardTypeHeuristics.CONCRETE_NOUN_INDICATORS (add-pinyin.py lines 77-80). -/
def CONCRETE_NOUN_INDICATORS : List (List Char) :=
  ["书".data, "车".data, "房".data, "桌".data, "椅".data, "门".data, "窗".data,
   "花".data, "树".data, "水".data, "火".data, "山".data, "河".data, "海".data,
   "天".data, "地".data, "人".data, "狗".data, "猫".data, "鸟".data, "鱼".data,
   "米".data, "菜".data, "肉".data, "蛋".data, "奶".data]

/-- Membership of a word in a word list (Python set membership). -/
def listMem (w : List Char) (ws : List (List Char)) : Bool :=
  ws.any (fun x => x == w)

/-- CardTypeHeuristics._is_concrete_noun (lines 130-134): one character and
not a function word. -/
def is_concrete_noun (word : List Char) : Bool :=
  word.length == 1 && !(listMem word FUNCTION_WORDS)

/-- Grammar-marker substrings of _has_grammar_pattern (lines 136-140). -/
def GRAMMAR_PATTERNS : List (List Char) :=
  ["因为".data, "所以".data, "虽然".data, "但是".data, "如果".data, "就".data,
   "才".data, "都".data, "还".data, "也".data]

/-- CardTypeHeuristics._has_grammar_pattern (lines 136-140). -/
def has_grammar_pattern (sentence : List Char) : Bool :=
  GRAMMAR_PATTERNS.any (fun p => containsSub p sentence)

/-- CardTypeHeuristics._has_complex_word_order (lines 142-146): longer than 10
characters and containing an internal comma or enumeration comma. -/
def has_complex_word_order (sentence : List Char) : Bool :=
  decide (10 < sentence.length) && (sentence.contains '，' || sentence.contains '、')

/-- CardTypeHeuristics._is_memorable_sentence (lines 148-154). -/
def is_memorable_sentence (sentence : List Char) : Bool :=
  decide (sentence.length ≤ 15) && decide (sentence.count '，' ≤ 1) &&
    !(("这是".data).isPrefixOf sentence)

/-- CardTypeHeuristics.suggest_card_types (add-pinyin.py lines 82-128):
the five independent heuristics appended in order 1..5, with card type 2 as
the fallback when no heuristic fires. -/
def suggest_card_types (note : AnkiNote) : List Nat :=
  let word := strip note.word
  let sentence := strip note.example_sentence
  let s :=
    (if !note.image.isEmpty || listMem word CONCRETE_NOUN_INDICATORS ||
        is_concrete_noun word then [1] else []) ++
    (if listMem word FUNCTION_WORDS then [2] else []) ++
    (if has_grammar_pattern sentence ||
        (decide (1 < word.length) && !(listMem word FUNCTION_WORDS)) then [3] else []) ++
    (if listMem word FUNCTION_WORDS || has_complex_word_order sentence then [4] else []) ++
    (if decide (sentence.length ≤ 15) && is_memorable_sentence sentence then [5] else [])
  if s.isEmpty then [2] else s

/-- The fixed-width blank marker used by the content generator. -/
def blankMarker : List Char := ['_', '_', '_']

/-- ContentGenerator.generate_cloze_sentence (add-pinyin.py lines 171-176):
replace the first occurrence of word by the blank marker; if word does not
occur, return the sentence unchanged. -/
def generate_cloze_sentence (sentence word : List Char) : List Char :=
  if containsSub word sentence then replaceFirst sentence word blankMarker
  else sentence

/-- ContentGenerator.generate_scrambled_sentence (add-pinyin.py lines
178-185): despite its name it performs no reordering at all, it replaces the
first occurrence of word by the blank marker (and returns the sentence
unchanged when word does not occur). -/
def generate_scrambled_sentence (sentence word : List Char) : List Char :=
  if containsSub word sentence then replaceFirst sentence word blankMarker
  else sentence

/-! ### add-pinyin.py: output serialisation and input parsing -/

/-- The 17 output fields in the fixed order of
AnkiCardGUI.write_output_file (add-pinyin.py lines 728-754). -/
def outputFields (n : AnkiNote) : List (List Char) :=
  [n.word, n.definitions_1, n.definitions_2, n.example_sentence,
   n.sentence_translation, n.word_audio, n.sentence_audio, n.image,
   n.cloze_sentence, n.cloze_sentence_pinyin, n.scrambled_sentence,
   n.scrambled_sentence_pinyin, n.reconstructed_sentence,
   n.reconstructed_sentence_pinyin, n.prompt, n.word_pinyin,
   n.example_sentence_pinyin]

/-- One output line: the 17 fields joined with tabs (write_output_file). -/
def outputLine (n : AnkiNote) : List Char := tabJoin (outputFields n)

/-- Processing of one input line by AnkiCardGUI.load_input_file (add-pinyin.py
lines 482-516): strip the line, skip it when empty or when it has fewer than 8
tab-separated fields, otherwise build a note from the first 8 fields and
attach the heuristic card-type suggestions. -/
def load_line (line : List Char) : Option AnkiNote :=
  let l := strip line
  if l.isEmpty then none
  else
    let fields := splitTab l
    if fields.length < 8 then none
    else
      let note : AnkiNote :=
        { word := fields.getD 0 [], definitions_1 := fields.getD 1 [],
          definitions_2 := fields.getD 2 [], example_sentence := fields.getD 3 [],
          sentence_translation := fields.getD 4 [], word_audio := fields.getD 5 [],
          sentence_audio := fields.getD 6 [], image := fields.getD 7 [] }
      some { note with selected_card_types := suggest_card_types note }

/-! ### python/main.py and python/test2.py: the syllable romanizers -/

/-- Python syllable.replace(uu, u-umlaut): rewrite every non-overlapping
occurrence of the two-letter umlaut substitute, scanning left to right. -/
def replaceUU : List Char → List Char
  | 'u' :: 'u' :: rest => 'ü' :: replaceUU rest
  | c :: rest => c :: replaceUU rest
  | [] => []

/-- The vowel set of both romanizers. -/
def isVowel (c : Char) : Bool :=
  c == 'a' || c == 'e' || c == 'i' || c == 'o' || c == 'u' || c == 'ü'

/-- TONE_MAP (python/main.py lines 15-22, identical in test2.py and, as
tone_marks, in generate_pinyin_decks.py): the four tone diacritics of each
vowel; none models a Python KeyError for a non-vowel key. -/
def toneRow : Char → Option (List Char)
  | 'a' => some ['ā', 'á', 'ǎ', 'à']
  | 'e' => some ['ē', 'é', 'ě', 'è']
  | 'i' => some ['ī', 'í', 'ǐ', 'ì']
  | 'o' => some ['ō', 'ó', 'ǒ', 'ò']
  | 'u' => some ['ū', 'ú', 'ǔ', 'ù']
  | 'ü' => some ['ǖ', 'ǘ', 'ǚ', 'ǜ']
  | _ => none

/-- Index of the last element satisfying p (the backwards scan of
pinyin_with_tone, python/main.py lines 40-43). -/
def lastIdxWhere (p : Char → Bool) (l : List Char) : Option Nat :=
  (findIdx p l.reverse).map (fun j => l.length - 1 - j)

/-- The position that receives the tone mark, shared verbatim by
pinyin_with_tone in python/main.py (lines 30-43) and python/test2.py (lines
20-33): the first occurrence of the letter a if present, else of o, else of
e; else the first u when the pair iu occurs; else the first i when the pair
ui occurs; else the last vowel. -/
def markPos (d : List Char) : Option Nat :=
  match findIdx (fun c => c == 'a') d with
  | some i => some i
  | none =>
    match findIdx (fun c => c == 'o') d with
    | some i => some i
    | none =>
      match findIdx (fun c => c == 'e') d with
      | some i => some i
      | none =>
        if containsSub ['i', 'u'] d then findIdx (fun c => c == 'u') d
        else if containsSub ['u', 'i'] d then findIdx (fun c => c == 'i') d
        else lastIdxWhere isVowel d

/-- Substitute position i of d by its tone-t diacritic: the slice-and-concat
of python/main.py line 33 and analogues; none models an uncaught KeyError or
IndexError. -/
def applyTone (d : List Char) (i t : Nat) : Option (List Char) :=
  match d.get? i with
  | none => none
  | some c =>
    match toneRow c with
    | none => none
    | some row =>
      match row.get? (t - 1) with
      | none => none
      | some m => some (d.take i ++ m :: d.drop (i + 1))

/-- pinyin_with_tone (python/main.py lines 24-44): normalize the umlaut
substitute, return unchanged for neutral tones 0 and 5, otherwise place one
diacritic at the selected position; an unrecognized syllable (no branch
fires) is returned unmodified. -/
def pinyin_with_tone (syllable : List Char) (tone : Nat) : Option (List Char) :=
  let d := replaceUU syllable
  if tone == 5 || tone == 0 then some d
  else
    match markPos d with
    | none => some d
    | some i => applyTone d i tone

/-- The style wrapper opened before the marked vowel by python/test2.py
(span with the tone-indexed class). -/
def openTag (t : Nat) : List Char :=
  "<span class=\"t".data ++ (toString t).data ++ "\">".data

/-- The style wrapper closed after the marked vowel by python/test2.py. -/
def closeTag : List Char := "</span>".data

/-- The styled substitution of python/test2.py (line 23 and analogues). -/
def applyToneStyled (d : List Char) (i t : Nat) : Option (List Char) :=
  match d.get? i with
  | none => none
  | some c =>
    match toneRow c with
    | none => none
    | some row =>
      match row.get? (t - 1) with
      | none => none
      | some m => some (d.take i ++ openTag t ++ m :: (closeTag ++ d.drop (i + 1)))

/-- pinyin_with_tone of python/test2.py (lines 15-34): identical to the
unstyled romanizer except that the marked vowel is wrapped in the
tone-indexed span. -/
def pinyin_with_tone_styled (syllable : List Char) (tone : Nat) : Option (List Char) :=
  let d := replaceUU syllable
  if tone == 5 || tone == 0 then some d
  else
    match markPos d with
    | none => some d
    | some i => applyToneStyled d i tone

/-! ### generate_pinyin_decks.py: PinyinDeckGenerator.format_pinyin -/

/-- Python str.lower restricted to the letters this code compares:
ASCII letters and the umlaut vowel. -/
def charLower (c : Char) : Char := if c == 'Ü' then 'ü' else c.toLower

/-- Python str.isupper on the characters format_pinyin can select. -/
def isUpperVowel (c : Char) : Bool :=
  c == 'A' || c == 'E' || c == 'I' || c == 'O' || c == 'U' || c == 'Ü'

/-- Python str.upper on the tone-marked vowels. -/
def charUpper : Char → Char
  | 'ā' => 'Ā' | 'á' => 'Á' | 'ǎ' => 'Ǎ' | 'à' => 'À'
  | 'ē' => 'Ē' | 'é' => 'É' | 'ě' => 'Ě' | 'è' => 'È'
  | 'ī' => 'Ī' | 'í' => 'Í' | 'ǐ' => 'Ǐ' | 'ì' => 'Ì'
  | 'ō' => 'Ō' | 'ó' => 'Ó' | 'ǒ' => 'Ǒ' | 'ò' => 'Ò'
  | 'ū' => 'Ū' | 'ú' => 'Ú' | 'ǔ' => 'Ǔ' | 'ù' => 'Ù'
  | 'ǖ' => 'Ǖ' | 'ǘ' => 'Ǘ' | 'ǚ' => 'Ǚ' | 'ǜ' => 'Ǜ'
  | c => c

/-- Python list indexing with a possibly negative index; none models an
IndexError. -/
def pyIdx (l : List Char) (i : Int) : Option Char :=
  if 0 ≤ i then l.get? i.toNat
  else if 0 ≤ (l.length : Int) + i then l.get? ((l.length : Int) + i).toNat
  else none

/-- TONE_COLORS (generate_pinyin_decks.py lines 15-20); none models a
KeyError for a tone outside 1-4. -/
def toneColor : Nat → Option (List Char)
  | 1 => some "#e33737".data
  | 2 => some "#e39c37".data
  | 3 => some "#5cb85c".data
  | 4 => some "#428bca".data
  | _ => none

/-- The colored span wrapped around the tone vowel by format_pinyin
(generate_pinyin_decks.py line 174). -/
def coloredSpan (color : List Char) (tv : Char) : List Char :=
  "<span style=\"color: ".data ++ color ++ "\">".data ++ tv :: "</span>".data

/-- Python s.replace(c, rep) for a single-character pattern: every
occurrence of c is replaced by rep. -/
def replaceAllChar (s : List Char) (c : Char) (rep : List Char) : List Char :=
  match s with
  | [] => []
  | x :: rest =>
    (if x == c then rep else [x]) ++ replaceAllChar rest c rep

/-- PinyinDeckGenerator.format_pinyin (generate_pinyin_decks.py lines
137-177), modelled with none for either of the two uncaught exceptions it can
hit (IndexError on the tone_marks row, KeyError on TONE_COLORS): normalize
the umlaut substitute, collect the vowels case-insensitively, return
unchanged when there is none, pick a single vowel (the unique one, else the
first vowel-pair rule that matches the lowercased syllable in the order iu,
ui, ia, ua, else the first vowel), and replace every occurrence of that
character by a colored tone-marked span. -/
def format_pinyin (syllable : List Char) (tone : Nat) : Option (List Char) :=
  let s := replaceUU syllable
  let vowels := s.filter (fun c => isVowel (charLower c))
  if vowels.isEmpty then some s
  else
    let lower := s.map charLower
    let vm? : Option Char :=
      if vowels.length == 1 then vowels.head?
      else
        if containsSub ['i', 'u'] lower then (findIdx (fun c => c == 'u') lower).bind s.get?
        else if containsSub ['u', 'i'] lower then (findIdx (fun c => c == 'i') lower).bind s.get?
        else if containsSub ['i', 'a'] lower then (findIdx (fun c => c == 'a') lower).bind s.get?
        else if containsSub ['u', 'a'] lower then (findIdx (fun c => c == 'a') lower).bind s.get?
        else vowels.head?
    match vm? with
    | none => none
    | some vm =>
      match toneRow (charLower vm) with
      | none => some s
      | some row =>
        match pyIdx row ((tone : Int) - 1) with
        | none => none
        | some tv =>
          let tv' := if isUpperVowel vm then charUpper tv else tv
          match toneColor tone with
          | none => none
          | some color => some (replaceAllChar s vm (coloredSpan color tv'))

/-! ### xlsx-to-csv.py: ExcelToCsvConverter.clean_meaning_text -/

/-- The regex substitution of whitespace runs by a single space
(xlsx-to-csv.py line 50): every maximal run of whitespace characters becomes
one space. -/
def collapseWs : List Char → List Char
  | [] => []
  | [c] => if isSpace c then [' '] else [c]
  | c1 :: c2 :: rest =>
    if isSpace c1 && isSpace c2 then collapseWs (c2 :: rest)
    else (if isSpace c1 then ' ' else c1) :: collapseWs (c2 :: rest)

/-- The alternatives of the anchored prefix regex of xlsx-to-csv.py line 53,
lowercased (the match is case-insensitive), each with the trailing colon. -/
def PREFIX_MARKERS : List (List Char) :=
  ["det.:".data, "audio:".data, "adj.:".data, "adv.:".data, "n.:".data,
   "v.:".data, "prep.:".data]

/-- Try the alternatives in order; on a case-insensitive prefix match return
the remainder of the original string. -/
def matchMarker : List (List Char) → List Char → Option (List Char)
  | [], _ => none
  | p :: ps, s =>
    if p.isPrefixOf (s.map charLower) then some (s.drop p.length)
    else matchMarker ps s

/-- The anchored prefix removal of xlsx-to-csv.py line 53: strip one leading
part-of-speech or Audio marker together with the whitespace following it. -/
def stripMarker (s : List Char) : List Char :=
  match matchMarker PREFIX_MARKERS s with
  | some rest => rest.dropWhile isSpace
  | none => s

/-- The asterisk removal of xlsx-to-csv.py line 56: delete every asterisk. -/
def removeStars (s : List Char) : List Char := s.filter (fun c => !(c == '*'))

/-- The first-definition heuristic of xlsx-to-csv.py lines 59-64: when the
text contains a comma, keep only the stripped part before the first comma,
but only if that part is longer than two characters. -/
def commaStep (t : List Char) : List Char :=
  if t.contains ',' then
    let m := strip (t.takeWhile (fun c => !(c == ',')))
    if 2 < m.length then m else t
  else t

/-- ExcelToCsvConverter.clean_meaning_text (xlsx-to-csv.py lines 41-66) on an
actual string (the not-a-number guard of lines 43-44 concerns pandas cells,
not strings): collapse and strip whitespace, drop one leading marker prefix,
drop asterisks, keep the first substantial comma-separated definition, and
strip again. -/
def clean_meaning_text (s : List Char) : List Char :=
  strip (commaStep (removeStars (stripMarker (strip (collapseWs s)))))

/-! ### Specification-side predicates for the marking rule (written from the
wording of the claims, to be compared with the implementation) -/

/-- Position i holds the first occurrence of the character x in d. -/
def firstOccOf (d : List Char) (x : Char) (i : Nat) : Prop :=
  d.get? i = some x ∧ ∀ j, j < i → d.get? j ≠ some x

/-- The two-character pair a b occurs contiguously in d. -/
def hasPair (d : List Char) (a b : Char) : Prop :=
  ∃ p suf, d = p ++ a :: b :: suf

/-- Position i holds the last vowel of d. -/
def lastVowelAt (d : List Char) (i : Nat) : Prop :=
  (∃ c, d.get? i = some c ∧ isVowel c = true) ∧
    ∀ j c, i < j → d.get? j = some c → isVowel c = false

/-- The amended marking rule of the romanizer: the first occurrence of the
letter a when a is present, else of o, else of e; else the first u when the
pair iu occurs; else the first i when the pair ui occurs; else the last
vowel. -/
def amendedMarkRule (d : List Char) (i : Nat) : Prop :=
  ('a' ∈ d ∧ firstOccOf d 'a' i) ∨
  ('a' ∉ d ∧ 'o' ∈ d ∧ firstOccOf d 'o' i) ∨
  ('a' ∉ d ∧ 'o' ∉ d ∧ 'e' ∈ d ∧ firstOccOf d 'e' i) ∨
  ('a' ∉ d ∧ 'o' ∉ d ∧ 'e' ∉ d ∧ hasPair d 'i' 'u' ∧ firstOccOf d 'u' i) ∨
  ('a' ∉ d ∧ 'o' ∉ d ∧ 'e' ∉ d ∧ ¬ hasPair d 'i' 'u' ∧ hasPair d 'u' 'i' ∧
    firstOccOf d 'i' i) ∨
  ('a' ∉ d ∧ 'o' ∉ d ∧ 'e' ∉ d ∧ ¬ hasPair d 'i' 'u' ∧ ¬ hasPair d 'u' 'i' ∧
    lastVowelAt d i)

/-- Every whitespace character of l is a plain space. -/
def AllBlank (l : List Char) : Prop := ∀ c ∈ l, isSpace c = true → c = ' '

/-- No two adjacent characters of l are both whitespace. -/
def NoAdjSpace (l : List Char) : Prop :=
  ∀ p a b suf, l = p ++ a :: b :: suf → isSpace a = true → isSpace b = true → False

/-- l is whitespace-normalized: every whitespace character is a single plain
space. This is the invariant established by the whitespace-collapsing
substitution. -/
def WsOk (l : List Char) : Prop := AllBlank l ∧ NoAdjSpace l

/-- l carries no whitespace at either end. -/
def Trimmed (l : List Char) : Prop :=
  (∀ c, l.head? = some c → isSpace c = false) ∧
    (∀ c, l.getLast? = some c → isSpace c = false)

/-! ## Basic lemmas about the string primitives -/

theorem isPrefixOf_iff {p l : List Char} : p.isPrefixOf l = true ↔ ∃ t, l = p ++ t := by
  induction p generalizing l with
  | nil => simp [List.isPrefixOf]
  | cons a as ih =>
    cases l with
    | nil => simp [List.isPrefixOf]
    | cons b bs =>
      simp only [List.isPrefixOf, Bool.and_eq_true, beq_iff_eq, ih, List.cons_append,
        List.cons.injEq]
      constructor
      · rintro ⟨rfl, t, rfl⟩; exact ⟨t, rfl, rfl⟩
      · rintro ⟨t, rfl, rfl⟩; exact ⟨rfl, t, rfl⟩

theorem containsSub_nil_pat (s : List Char) : containsSub [] s = true := by
  cases s <;> simp [containsSub, List.isPrefixOf]

theorem containsSub_iff {pat l : List Char} :
    containsSub pat l = true ↔ ∃ p suf, l = p ++ pat ++ suf := by
  induction l with
  | nil =>
    simp only [containsSub, List.isEmpty_iff]
    constructor
    · rintro rfl; exact ⟨[], [], rfl⟩
    · rintro ⟨p, suf, h⟩
      rcases List.append_eq_nil.mp h.symm with ⟨h1, h2⟩
      exact (List.append_eq_nil.mp h1).2
  | cons c rest ih =>
    simp only [containsSub, Bool.or_eq_true, isPrefixOf_iff, ih]
    constructor
    · rintro (⟨t, ht⟩ | ⟨p, suf, hp⟩)
      · exact ⟨[], t, by simp [ht]⟩
      · exact ⟨c :: p, suf, by simp [hp]⟩
    · rintro ⟨p, suf, hp⟩
      cases p with
      | nil => exact Or.inl ⟨suf, by simpa using hp⟩
      | cons x xs =>
        right
        simp only [List.cons_append, List.cons.injEq] at hp
        exact ⟨xs, suf, hp.2⟩

theorem replaceFirst_nil_pat (s r : List Char) : replaceFirst s [] r = r ++ s := by
  cases s <;> simp [replaceFirst, List.isPrefixOf]

theorem replaceFirst_spec {s w : List Char} (r : List Char)
    (h : containsSub w s = true) :
    ∃ p suf, s = p ++ w ++ suf ∧ replaceFirst s w r = p ++ r ++ suf ∧
      ∀ j, j < p.length → w.isPrefixOf (s.drop j) = false := by
  induction s with
  | nil =>
    simp only [containsSub, List.isEmpty_iff] at h
    subst h
    exact ⟨[], [], rfl, by simp [replaceFirst], by simp⟩
  | cons c rest ih =>
    by_cases hp : w.isPrefixOf (c :: rest) = true
    · rcases isPrefixOf_iff.mp hp with ⟨t, ht⟩
      refine ⟨[], t, by simpa using ht, ?_, by simp⟩
      simp only [replaceFirst, hp, if_true, List.nil_append]
      rw [ht, List.drop_left]
    · have hc : containsSub w rest = true := by
        have := h
        simp only [containsSub, Bool.or_eq_true] at this
        rcases this with h1 | h2
        · exact absurd h1 hp
        · exact h2
      rcases ih hc with ⟨p, suf, hs, hr, hfirst⟩
      refine ⟨c :: p, suf, by simp [hs], ?_, ?_⟩
      · simp only [replaceFirst]
        rw [if_neg (by simp [hp])]
        simp [hr]
      · intro j hj
        cases j with
        | zero => simpa using (Bool.eq_false_iff.mpr hp)
        | succ k =>
          simp only [List.drop_succ_cons]
          exact hfirst k (Nat.lt_of_succ_lt_succ hj)

/-! ## C1, C2, C10: the content generator -/

/-- C1: for a record with card type 4 selected the code does not scramble at
all: on the sentence 我爸爸在家。 with word 爸爸 the generated scrambled
sentence is the sentence with the word replaced by the blank marker, in the
original order; it contains an underscore, which the original sentence does
not, so it is not a reordering of the original tokens or characters. -/
theorem C1_scrambled_is_not_a_permutation :
    generate_scrambled_sentence "我爸爸在家。".data "爸爸".data = "我___在家。".data
    ∧ '_' ∈ "我___在家。".data ∧ '_' ∉ "我爸爸在家。".data := by
  decide

/-- C2 (amended): cloze generation replaces the first exact occurrence of the
word by the blank marker; when the word does not occur verbatim the sentence
is returned unchanged, with no blank marker appended; the function is total. -/
theorem C2_cloze_first_occurrence (s w : List Char) :
    (containsSub w s = true →
      ∃ p suf, s = p ++ w ++ suf ∧
        generate_cloze_sentence s w = p ++ blankMarker ++ suf ∧
        ∀ j, j < p.length → w.isPrefixOf (s.drop j) = false)
    ∧ (containsSub w s = false → generate_cloze_sentence s w = s) := by
  constructor
  · intro h
    rcases replaceFirst_spec blankMarker h with ⟨p, suf, hs, hr, hfirst⟩
    exact ⟨p, suf, hs, by simpa [generate_cloze_sentence, h] using hr, hfirst⟩
  · intro h
    simp [generate_cloze_sentence, h]

/-- Witness for C2 at a concrete input: the word 爸爸 occurs in 我爸爸在家。
and the occurrence is replaced in place. -/
theorem C2_cloze_witness :
    ∃ p suf, "我爸爸在家。".data = p ++ "爸爸".data ++ suf ∧
      generate_cloze_sentence "我爸爸在家。".data "爸爸".data = p ++ blankMarker ++ suf ∧
      ∀ j, j < p.length → ("爸爸".data).isPrefixOf (("我爸爸在家。".data).drop j) = false :=
  (C2_cloze_first_occurrence "我爸爸在家。".data "爸爸".data).1 (by decide)

/-- C2 fails as stated: for a word absent from the sentence the code returns
the sentence unchanged, it does not append the blank marker. -/
theorem C2_absent_word_keeps_sentence :
    generate_cloze_sentence "你好".data "的".data = "你好".data
    ∧ containsSub "的".data "你好".data = false
    ∧ containsSub blankMarker ("你好".data) = false := by
  decide

/-- C10: for the empty word the guard is vacuous (the empty string occurs in
every string) and Python replace with count one inserts the marker at the
front, so the result is the blank marker prepended to the sentence, which is
never the unchanged sentence. -/
theorem C10_empty_word_prepends_blank (s : List Char) :
    generate_cloze_sentence s [] = blankMarker ++ s
    ∧ generate_cloze_sentence s [] ≠ s := by
  have h : generate_cloze_sentence s [] = blankMarker ++ s := by
    simp [generate_cloze_sentence, containsSub_nil_pat, replaceFirst_nil_pat]
  refine ⟨h, ?_⟩
  rw [h]
  intro hc
  have := congrArg List.length hc
  simp only [blankMarker, List.length_append, List.length_cons] at this
  omega

/-! ## C5: the classifier always suggests something -/

theorem fallback_ne_nil (l : List Nat) : (if l.isEmpty then [2] else l) ≠ [] := by
  by_cases h : l.isEmpty
  · simp [h]
  · simp only [h, Bool.false_eq_true, if_false]
    simpa [List.isEmpty_iff] using h

/-- C5: for every record the suggestion set is non-empty: when none of the
five heuristics fires, card type 2 is appended as the fallback. -/
theorem C5_suggest_never_empty (note : AnkiNote) : suggest_card_types note ≠ [] := by
  simp only [suggest_card_types]
  exact fallback_ne_nil _

/-! ## C4: when card type 4 is suggested -/

theorem mem_four_of_build (c1 c2 c3 c4 c5 : Bool) :
    4 ∈ (if ((if c1 then [1] else []) ++ (if c2 then [2] else []) ++
          (if c3 then [3] else []) ++ (if c4 then ([4] : List Nat) else []) ++
          (if c5 then [5] else [])).isEmpty then [2]
        else (if c1 then [1] else []) ++ (if c2 then [2] else []) ++
          (if c3 then [3] else []) ++ (if c4 then [4] else []) ++
          (if c5 then [5] else [])) ↔ c4 = true := by
  cases c1 <;> cases c2 <;> cases c3 <;> cases c4 <;> cases c5 <;> decide

/-- C4 (amended): card type 4 is suggested exactly when the stripped word is
one of the function words, or the stripped sentence is longer than 10
characters and contains an internal comma or enumeration comma; the
word-placement heuristic ORs the function-word test with the sentence test,
it does not require the sentence test. -/
theorem C4_type4_iff (note : AnkiNote) :
    4 ∈ suggest_card_types note ↔
      (listMem (strip note.word) FUNCTION_WORDS = true ∨
        (10 < (strip note.example_sentence).length ∧
          ('，' ∈ strip note.example_sentence ∨ '、' ∈ strip note.example_sentence))) := by
  have h := mem_four_of_build
    (!note.image.isEmpty || listMem (strip note.word) CONCRETE_NOUN_INDICATORS ||
      is_concrete_noun (strip note.word))
    (listMem (strip note.word) FUNCTION_WORDS)
    (has_grammar_pattern (strip note.example_sentence) ||
      (decide (1 < (strip note.word).length) &&
        !(listMem (strip note.word) FUNCTION_WORDS)))
    (listMem (strip note.word) FUNCTION_WORDS ||
      has_complex_word_order (strip note.example_sentence))
    (decide ((strip note.example_sentence).length ≤ 15) &&
      is_memorable_sentence (strip note.example_sentence))
  simp only [suggest_card_types]
  rw [h]
  simp [has_complex_word_order, List.contains, List.elem_iff, Bool.or_eq_true,
    Bool.and_eq_true, decide_eq_true_iff]

/-- C4 fails as stated: the record whose word is the particle 的 and whose
example sentence is empty is assigned card type 4 by the function-word half
of the heuristic although its sentence is far below the length threshold. -/
theorem C4_short_sentence_still_type4 :
    4 ∈ suggest_card_types { word := "的".data }
    ∧ (strip ({ word := "的".data } : AnkiNote).example_sentence).length = 0 := by
  decide

/-! ## Lemmas about findIdx, lastIdxWhere and markPos -/

theorem findIdx_some_spec {p : Char → Bool} {l : List Char} {i : Nat}
    (h : findIdx p l = some i) :
    ∃ c, l.get? i = some c ∧ p c = true ∧
      ∀ j c', j < i → l.get? j = some c' → p c' = false := by
  induction l generalizing i with
  | nil => simp [findIdx] at h
  | cons c rest ih =>
    by_cases hp : p c = true
    · simp only [findIdx, hp, if_true] at h
      cases h
      exact ⟨c, rfl, hp, fun j c' hj => by omega⟩
    · simp only [findIdx, hp, if_false, Bool.false_eq_true, Option.map_eq_some'] at h
      rcases h with ⟨i', hi', rfl⟩
      rcases ih hi' with ⟨c', hget, hpc, hbefore⟩
      refine ⟨c', hget, hpc, ?_⟩
      intro j c'' hj hg
      cases j with
      | zero =>
        simp only [List.get?] at hg
        cases hg
        exact Bool.eq_false_iff.mpr hp
      | succ k => exact hbefore k c'' (by omega) hg

theorem findIdx_none_spec {p : Char → Bool} {l : List Char}
    (h : findIdx p l = none) : ∀ c ∈ l, p c = false := by
  induction l with
  | nil => simp
  | cons c rest ih =>
    by_cases hp : p c = true
    · simp [findIdx, hp] at h
    · simp only [findIdx, hp, if_false, Bool.false_eq_true, Option.map_eq_none'] at h
      intro x hx
      rcases List.mem_cons.mp hx with rfl | hx'
      · exact Bool.eq_false_iff.mpr hp
      · exact ih h x hx'

theorem findIdx_ne_none {p : Char → Bool} {l : List Char} {c : Char}
    (hc : c ∈ l) (hp : p c = true) : findIdx p l ≠ none := by
  intro h
  rw [findIdx_none_spec h c hc] at hp
  exact Bool.noConfusion hp

theorem findIdx_eq_firstOcc {x : Char} {l : List Char} {i : Nat}
    (h : findIdx (fun c => c == x) l = some i) : firstOccOf l x i := by
  rcases findIdx_some_spec h with ⟨c, hget, hpc, hbefore⟩
  rw [beq_iff_eq] at hpc
  subst hpc
  refine ⟨hget, ?_⟩
  intro j hj hg
  have := hbefore j c hj hg
  simp at this

theorem findIdx_eq_none_not_mem {x : Char} {l : List Char}
    (h : findIdx (fun c => c == x) l = none) : x ∉ l := by
  intro hx
  exact findIdx_ne_none hx (by simp) h

theorem get?_length_lt {l : List Char} {n : Nat} {c : Char}
    (h : l.get? n = some c) : n < l.length := by
  by_contra hn
  rw [List.get?_len_le (Nat.le_of_not_lt hn)] at h
  exact Option.noConfusion h

theorem lastIdxWhere_some_spec {p : Char → Bool} {l : List Char} {i : Nat}
    (h : lastIdxWhere p l = some i) :
    (∃ c, l.get? i = some c ∧ p c = true) ∧
      ∀ j c, i < j → l.get? j = some c → p c = false := by
  simp only [lastIdxWhere, Option.map_eq_some'] at h
  rcases h with ⟨j0, hj0, rfl⟩
  rcases findIdx_some_spec hj0 with ⟨c, hget, hpc, hbefore⟩
  have hj0len : j0 < l.length := by
    have := get?_length_lt hget
    simpa using this
  have hrev : l.reverse.get? j0 = l.get? (l.length - 1 - j0) := List.get?_reverse hj0len
  constructor
  · exact ⟨c, by rw [← hrev]; exact hget, hpc⟩
  · intro j c' hij hgj
    have hjlen : j < l.length := get?_length_lt hgj
    have hk : l.reverse.get? (l.length - 1 - j) = l.get? j := by
      rw [List.get?_reverse (by omega)]
      congr 1
      omega
    exact hbefore (l.length - 1 - j) c' (by omega) (by rw [hk]; exact hgj)

theorem lastIdxWhere_ne_none {p : Char → Bool} {l : List Char} {c : Char}
    (hc : c ∈ l) (hp : p c = true) : lastIdxWhere p l ≠ none := by
  simp only [lastIdxWhere, Option.map_eq_none', ne_eq]
  exact findIdx_ne_none (List.mem_reverse.mpr hc) hp

theorem hasPair_of_containsSub {d : List Char} {a b : Char}
    (h : containsSub [a, b] d = true) : hasPair d a b := by
  rcases containsSub_iff.mp h with ⟨p, suf, hp⟩
  exact ⟨p, suf, by simpa using hp⟩

theorem not_hasPair_of_not_containsSub {d : List Char} {a b : Char}
    (h : containsSub [a, b] d = false) : ¬ hasPair d a b := by
  rintro ⟨p, suf, rfl⟩
  rw [containsSub_iff.mpr ⟨p, suf, by simp⟩] at h
  exact Bool.noConfusion h

theorem markPos_amended {d : List Char} {i : Nat} (h : markPos d = some i) :
    amendedMarkRule d i := by
  unfold markPos at h
  cases ha : findIdx (fun c => c == 'a') d with
  | some ia =>
    rw [ha] at h
    cases h
    exact Or.inl ⟨List.get?_mem (findIdx_eq_firstOcc ha).1, findIdx_eq_firstOcc ha⟩
  | none =>
    rw [ha] at h
    have hna := findIdx_eq_none_not_mem ha
    cases ho : findIdx (fun c => c == 'o') d with
    | some io =>
      rw [ho] at h
      cases h
      exact Or.inr (Or.inl ⟨hna, List.get?_mem (findIdx_eq_firstOcc ho).1,
        findIdx_eq_firstOcc ho⟩)
    | none =>
      rw [ho] at h
      have hno := findIdx_eq_none_not_mem ho
      cases he : findIdx (fun c => c == 'e') d with
      | some ie =>
        rw [he] at h
        cases h
        exact Or.inr (Or.inr (Or.inl ⟨hna, hno, List.get?_mem
          (findIdx_eq_firstOcc he).1, findIdx_eq_firstOcc he⟩))
      | none =>
        rw [he] at h
        have hne := findIdx_eq_none_not_mem he
        by_cases hiu : containsSub ['i', 'u'] d = true
        · rw [if_pos hiu] at h
          exact Or.inr (Or.inr (Or.inr (Or.inl ⟨hna, hno, hne,
            hasPair_of_containsSub hiu, findIdx_eq_firstOcc h⟩)))
        · rw [if_neg hiu] at h
          have hiu' := not_hasPair_of_not_containsSub (Bool.eq_false_iff.mpr hiu)
          by_cases hui : containsSub ['u', 'i'] d = true
          · rw [if_pos hui] at h
            exact Or.inr (Or.inr (Or.inr (Or.inr (Or.inl ⟨hna, hno, hne, hiu',
              hasPair_of_containsSub hui, findIdx_eq_firstOcc h⟩))))
          · rw [if_neg hui] at h
            have hui' := not_hasPair_of_not_containsSub (Bool.eq_false_iff.mpr hui)
            exact Or.inr (Or.inr (Or.inr (Or.inr (Or.inr ⟨hna, hno, hne, hiu', hui',
              lastIdxWhere_some_spec h⟩))))

theorem markPos_ne_none {d : List Char} {c : Char} (hc : c ∈ d)
    (hv : isVowel c = true) : markPos d ≠ none := by
  unfold markPos
  cases ha : findIdx (fun x => x == 'a') d with
  | some ia => simp
  | none =>
    cases ho : findIdx (fun x => x == 'o') d with
    | some io => simp
    | none =>
      cases he : findIdx (fun x => x == 'e') d with
      | some ie => simp
      | none =>
        by_cases hiu : containsSub ['i', 'u'] d = true
        · rw [if_pos hiu]
          rcases containsSub_iff.mp hiu with ⟨p, suf, rfl⟩
          have hu : ('u' : Char) ∈ p ++ ['i', 'u'] ++ suf := by simp
          exact findIdx_ne_none hu (by simp)
        · rw [if_neg hiu]
          by_cases hui : containsSub ['u', 'i'] d = true
          · rw [if_pos hui]
            rcases containsSub_iff.mp hui with ⟨p, suf, rfl⟩
            have hi : ('i' : Char) ∈ p ++ ['u', 'i'] ++ suf := by simp
            exact findIdx_ne_none hi (by simp)
          · rw [if_neg hui]
            exact lastIdxWhere_ne_none hc hv

theorem amendedMarkRule_vowel {d : List Char} {i : Nat}
    (h : amendedMarkRule d i) : ∃ c, d.get? i = some c ∧ isVowel c = true := by
  rcases h with ⟨_, hf⟩ | ⟨_, _, hf⟩ | ⟨_, _, _, hf⟩ |
    ⟨_, _, _, _, hf⟩ | ⟨_, _, _, _, _, hf⟩ | ⟨_, _, _, _, _, ⟨c, hc, hv⟩, _⟩
  · exact ⟨'a', hf.1, by decide⟩
  · exact ⟨'o', hf.1, by decide⟩
  · exact ⟨'e', hf.1, by decide⟩
  · exact ⟨'u', hf.1, by decide⟩
  · exact ⟨'i', hf.1, by decide⟩
  · exact ⟨c, hc, hv⟩

theorem toneRow_of_vowel {c : Char} (hv : isVowel c = true) :
    ∃ row, toneRow c = some row ∧ row.length = 4 := by
  have h : c = 'a' ∨ c = 'e' ∨ c = 'i' ∨ c = 'o' ∨ c = 'u' ∨ c = 'ü' := by
    simp only [isVowel, Bool.or_eq_true, beq_iff_eq] at hv
    tauto
  rcases h with rfl | rfl | rfl | rfl | rfl | rfl <;> exact ⟨_, rfl, rfl⟩

/-! ## C3: which vowel receives the diacritic -/

/-- C3 (amended): for tones 1-4 and a syllable whose normalized form contains
a vowel, the romanizer substitutes exactly one position, chosen by the
precedence: the first letter a when a is present, else the first o, else the
first e; else the first u in the whole syllable when the pair iu occurs; else
the first i when the pair ui occurs; else the last vowel. The character at
that position is replaced by its tone-indexed diacritic and the rest of the
syllable is unchanged; in particular zuo with tone 4 marks the o and niu with
tone 2 marks the u. -/
theorem C3_marking_rule :
    (∀ (s : List Char) (t : Nat), 1 ≤ t → t ≤ 4 →
      (∃ c ∈ replaceUU s, isVowel c = true) →
      ∃ i c row m, amendedMarkRule (replaceUU s) i ∧
        (replaceUU s).get? i = some c ∧ toneRow c = some row ∧
        row.get? (t - 1) = some m ∧
        pinyin_with_tone s t =
          some ((replaceUU s).take i ++ m :: (replaceUU s).drop (i + 1)))
    ∧ pinyin_with_tone "zuo".data 4 = some "zuò".data
    ∧ pinyin_with_tone "niu".data 2 = some "niú".data := by
  refine ⟨?_, by decide, by decide⟩
  intro s t h1 h2 hv
  rcases hv with ⟨c0, hc0, hv0⟩
  have ht5 : (t == 5 || t == 0) = false := by
    simp only [Bool.or_eq_false_iff, beq_eq_false_iff_ne]
    omega
  cases hmp : markPos (replaceUU s) with
  | none => exact absurd hmp (markPos_ne_none hc0 hv0)
  | some i =>
    have hrule := markPos_amended hmp
    rcases amendedMarkRule_vowel hrule with ⟨c, hget, hcv⟩
    rcases toneRow_of_vowel hcv with ⟨row, hrow, hlen⟩
    have hm : ∃ m, row.get? (t - 1) = some m := by
      have : t - 1 < row.length := by omega
      cases hg : row.get? (t - 1) with
      | none => rw [List.get?_eq_none] at hg; omega
      | some m => exact ⟨m, rfl⟩
    rcases hm with ⟨m, hm⟩
    refine ⟨i, c, row, m, hrule, hget, hrow, hm, ?_⟩
    simp only [pinyin_with_tone, ht5, Bool.false_eq_true, if_false, hmp]
    have hget' : (replaceUU s)[i]? = some c := by
      rw [← List.get?_eq_getElem?]; exact hget
    have hm' : row[t - 1]? = some m := by
      rw [← List.get?_eq_getElem?]; exact hm
    simp [applyTone, hget', hrow, hm']

/-- Witness for C3 at the concrete syllable zuo with tone 4. -/
theorem C3_marking_rule_witness :
    ∃ i c row m, amendedMarkRule (replaceUU "zuo".data) i ∧
      (replaceUU "zuo".data).get? i = some c ∧ toneRow c = some row ∧
      row.get? (4 - 1) = some m ∧
      pinyin_with_tone "zuo".data 4 =
        some ((replaceUU "zuo".data).take i ++ m :: (replaceUU "zuo".data).drop (i + 1)) :=
  C3_marking_rule.1 "zuo".data 4 (by decide) (by decide) ⟨'u', by decide, by decide⟩

/-- C3 fails as stated: in the syllable oa the first of the letters a, o, e
scanning left to right is the o at position 0, but the code marks the a: the
loop tries the letter a over the whole syllable before trying o. -/
theorem C3_oa_marks_a_not_o :
    pinyin_with_tone ['o', 'a'] 1 = some ['o', 'ā']
    ∧ findIdx (fun c => c == 'a' || c == 'o' || c == 'e') ['o', 'a'] = some 0
    ∧ (['o', 'ā'].get? 0 = some 'o' ∧ ['o', 'ā'] ≠ ['ō', 'a']) := by
  decide

/-! ## C9: the styled romanizer is a pure decorator -/

/-- C9: for every syllable and every tone 1-4 the styled romanizer of
test2.py differs from the unstyled romanizer of python/main.py only by the
tone-indexed span wrapped around the marked vowel: either no vowel is found
and both return the normalized syllable unchanged, or both outputs share the
same prefix, the same tone-marked character and the same suffix, with the
styled output inserting the opening tag before and the closing tag after that
character; removing the wrapper therefore yields the unstyled output. -/
theorem C9_styled_is_decorator (s : List Char) (t : Nat) (h1 : 1 ≤ t) (h2 : t ≤ 4) :
    (pinyin_with_tone s t = some (replaceUU s) ∧
      pinyin_with_tone_styled s t = some (replaceUU s))
    ∨ ∃ p c suf, pinyin_with_tone s t = some (p ++ c :: suf) ∧
        pinyin_with_tone_styled s t = some (p ++ openTag t ++ c :: (closeTag ++ suf)) := by
  have ht5 : (t == 5 || t == 0) = false := by
    simp only [Bool.or_eq_false_iff, beq_eq_false_iff_ne]
    omega
  cases hmp : markPos (replaceUU s) with
  | none =>
    left
    constructor <;>
      simp [pinyin_with_tone, pinyin_with_tone_styled, ht5, hmp]
  | some i =>
    right
    rcases amendedMarkRule_vowel (markPos_amended hmp) with ⟨c, hget, hcv⟩
    rcases toneRow_of_vowel hcv with ⟨row, hrow, hlen⟩
    have hm : ∃ m, row.get? (t - 1) = some m := by
      have hlt : t - 1 < row.length := by omega
      cases hg : row.get? (t - 1) with
      | none => rw [List.get?_eq_none] at hg; omega
      | some m => exact ⟨m, rfl⟩
    rcases hm with ⟨m, hm⟩
    have hget' : (replaceUU s)[i]? = some c := by
      rw [← List.get?_eq_getElem?]; exact hget
    have hm' : row[t - 1]? = some m := by
      rw [← List.get?_eq_getElem?]; exact hm
    refine ⟨(replaceUU s).take i, m, (replaceUU s).drop (i + 1), ?_, ?_⟩
    · simp only [pinyin_with_tone, ht5, Bool.false_eq_true, if_false, hmp]
      simp [applyTone, hget', hrow, hm']
    · simp only [pinyin_with_tone_styled, ht5, Bool.false_eq_true, if_false, hmp]
      simp [applyToneStyled, hget', hrow, hm']

/-- Witness for C9 at the concrete syllable zuo with tone 4. -/
theorem C9_styled_witness :
    (pinyin_with_tone "zuo".data 4 = some (replaceUU "zuo".data) ∧
      pinyin_with_tone_styled "zuo".data 4 = some (replaceUU "zuo".data))
    ∨ ∃ p c suf, pinyin_with_tone "zuo".data 4 = some (p ++ c :: suf) ∧
        pinyin_with_tone_styled "zuo".data 4 =
          some (p ++ openTag 4 ++ c :: (closeTag ++ suf)) :=
  C9_styled_is_decorator "zuo".data 4 (by decide) (by decide)

/-! ## C8: totality of the romanizers -/

theorem markPos_none_of_no_vowel {d : List Char}
    (h : ∀ c ∈ d, isVowel c = false) : markPos d = none := by
  cases hmp : markPos d with
  | none => rfl
  | some i =>
    rcases amendedMarkRule_vowel (markPos_amended hmp) with ⟨c, hget, hv⟩
    rw [h c (List.get?_mem hget)] at hv
    exact Bool.noConfusion hv

theorem pinyin_with_tone_no_vowel {s : List Char} (t : Nat)
    (h : ∀ c ∈ replaceUU s, isVowel c = false) :
    pinyin_with_tone s t = some (replaceUU s) := by
  by_cases ht : (t == 5 || t == 0) = true <;>
    simp [pinyin_with_tone, ht, markPos_none_of_no_vowel h]

theorem filter_head?_pred {p : Char → Bool} {l : List Char} {c : Char}
    (h : (l.filter p).head? = some c) : p c = true ∧ c ∈ l := by
  cases hf : l.filter p with
  | nil => rw [hf] at h; exact Option.noConfusion h
  | cons a as =>
    rw [hf] at h
    cases h
    have : c ∈ l.filter p := by rw [hf]; exact List.mem_cons_self c as
    exact ⟨(List.mem_filter.mp this).2, (List.mem_filter.mp this).1⟩

theorem toneColor_isSome {t : Nat} (h1 : 1 ≤ t) (h2 : t ≤ 4) :
    ∃ color, toneColor t = some color := by
  interval_cases t <;> exact ⟨_, rfl⟩

theorem containsSub_pair_mem {l : List Char} {a b : Char}
    (h : containsSub [a, b] l = true) : a ∈ l ∧ b ∈ l := by
  rcases containsSub_iff.mp h with ⟨p, suf, rfl⟩
  constructor <;> simp

theorem pair_branch_some {d : List Char} {x : Char} (hx : x ∈ d.map charLower)
    (hvx : isVowel x = true) :
    ∃ vm, (findIdx (fun c => c == x) (d.map charLower)).bind d.get? = some vm ∧
      isVowel (charLower vm) = true := by
  cases hfi : findIdx (fun c => c == x) (d.map charLower) with
  | none => exact absurd hfi (findIdx_ne_none hx (by simp))
  | some j =>
    rcases findIdx_some_spec hfi with ⟨c', hget, hpc, _⟩
    rw [beq_iff_eq] at hpc
    subst hpc
    rw [List.get?_map] at hget
    rcases Option.map_eq_some'.mp hget with ⟨y, hy, hyl⟩
    exact ⟨y, by rw [Option.some_bind]; exact hy, by rw [hyl]; exact hvx⟩

theorem vmSel_spec {d : List Char}
    (hemp : (d.filter (fun c => isVowel (charLower c))).isEmpty = false) :
    ∃ vm, (if (d.filter (fun c => isVowel (charLower c))).length == 1 then
        (d.filter (fun c => isVowel (charLower c))).head?
      else if containsSub ['i', 'u'] (d.map charLower) then
        (findIdx (fun c => c == 'u') (d.map charLower)).bind d.get?
      else if containsSub ['u', 'i'] (d.map charLower) then
        (findIdx (fun c => c == 'i') (d.map charLower)).bind d.get?
      else if containsSub ['i', 'a'] (d.map charLower) then
        (findIdx (fun c => c == 'a') (d.map charLower)).bind d.get?
      else if containsSub ['u', 'a'] (d.map charLower) then
        (findIdx (fun c => c == 'a') (d.map charLower)).bind d.get?
      else (d.filter (fun c => isVowel (charLower c))).head?) = some vm ∧
      isVowel (charLower vm) = true := by
  have hhead : ∃ v, (d.filter (fun c => isVowel (charLower c))).head? = some v ∧
      isVowel (charLower v) = true := by
    cases hh : (d.filter (fun c => isVowel (charLower c))).head? with
    | none =>
      rw [List.head?_eq_none_iff] at hh
      rw [hh] at hemp
      exact Bool.noConfusion hemp
    | some v => exact ⟨v, rfl, (filter_head?_pred hh).1⟩
  by_cases hlen1 : ((d.filter (fun c => isVowel (charLower c))).length == 1) = true
  · rw [if_pos hlen1]
    exact hhead
  · rw [if_neg hlen1]
    by_cases hiu : containsSub ['i', 'u'] (d.map charLower) = true
    · rw [if_pos hiu]
      exact pair_branch_some (containsSub_pair_mem hiu).2 (by decide)
    · rw [if_neg hiu]
      by_cases hui : containsSub ['u', 'i'] (d.map charLower) = true
      · rw [if_pos hui]
        exact pair_branch_some (containsSub_pair_mem hui).2 (by decide)
      · rw [if_neg hui]
        by_cases hia : containsSub ['i', 'a'] (d.map charLower) = true
        · rw [if_pos hia]
          exact pair_branch_some (containsSub_pair_mem hia).2 (by decide)
        · rw [if_neg hia]
          by_cases hua : containsSub ['u', 'a'] (d.map charLower) = true
          · rw [if_pos hua]
            exact pair_branch_some (containsSub_pair_mem hua).2 (by decide)
          · rw [if_neg hua]
            exact hhead

theorem pyIdx_of_le {row : List Char} {t : Nat} (h1 : 1 ≤ t) (hlen : row.length = 4)
    (h2 : t ≤ 4) : ∃ tv, pyIdx row ((t : Int) - 1) = some tv := by
  have hge : (0 : Int) ≤ (t : Int) - 1 := by omega
  have htn : ((t : Int) - 1).toNat = t - 1 := by omega
  simp only [pyIdx, hge, if_true, htn]
  have hlt : t - 1 < row.length := by omega
  cases hg : row.get? (t - 1) with
  | none => rw [List.get?_eq_none] at hg; omega
  | some m => exact ⟨m, rfl⟩

/-- C8 (amended): pinyin_with_tone terminates and never raises for every
tone in the declared domain, and returns the normalized syllable unmodified
whenever no vowel is present, for every tone; format_pinyin never raises for
tones 1-4 and returns the normalized syllable unmodified whenever no
character is a vowel in either case, for every tone — but, unlike
pinyin_with_tone, it raises on the neutral tones 0 and 5 when a vowel is
present. -/
theorem C8_romanizers_total :
    (∀ (s : List Char) (t : Nat), t = 0 ∨ t = 5 ∨ (1 ≤ t ∧ t ≤ 4) →
      (pinyin_with_tone s t).isSome = true)
    ∧ (∀ (s : List Char) (t : Nat),
        (∀ c ∈ replaceUU s, isVowel c = false) →
        pinyin_with_tone s t = some (replaceUU s))
    ∧ (∀ (s : List Char) (t : Nat), 1 ≤ t → t ≤ 4 →
        (format_pinyin s t).isSome = true)
    ∧ (∀ (s : List Char) (t : Nat),
        (∀ c ∈ replaceUU s, isVowel (charLower c) = false) →
        format_pinyin s t = some (replaceUU s)) := by
  refine ⟨?_, ?_, ?_, ?_⟩
  · intro s t ht
    rcases ht with rfl | rfl | ⟨h1, h2⟩
    · simp [pinyin_with_tone]
    · simp [pinyin_with_tone]
    · have ht5 : (t == 5 || t == 0) = false := by
        simp only [Bool.or_eq_false_iff, beq_eq_false_iff_ne]
        omega
      cases hmp : markPos (replaceUU s) with
      | none => simp [pinyin_with_tone, ht5, hmp]
      | some i =>
        rcases amendedMarkRule_vowel (markPos_amended hmp) with ⟨c, hget, hcv⟩
        rcases toneRow_of_vowel hcv with ⟨row, hrow, hlen⟩
        have hm : ∃ m, row.get? (t - 1) = some m := by
          have hlt : t - 1 < row.length := by omega
          cases hg : row.get? (t - 1) with
          | none => rw [List.get?_eq_none] at hg; omega
          | some m => exact ⟨m, rfl⟩
        rcases hm with ⟨m, hm⟩
        have hget' : (replaceUU s)[i]? = some c := by
          rw [← List.get?_eq_getElem?]; exact hget
        have hm' : row[t - 1]? = some m := by
          rw [← List.get?_eq_getElem?]; exact hm
        simp [pinyin_with_tone, ht5, hmp, applyTone, hget', hrow, hm']
  · intro s t h
    exact pinyin_with_tone_no_vowel t h
  · intro s t h1 h2
    rcases toneColor_isSome h1 h2 with ⟨color, hcolor⟩
    by_cases hemp : ((replaceUU s).filter (fun c => isVowel (charLower c))).isEmpty = true
    · simp [format_pinyin, hemp]
    · rcases vmSel_spec (Bool.eq_false_iff.mpr hemp) with ⟨vm, hvm, hv⟩
      rcases toneRow_of_vowel hv with ⟨row, hrow, hlen⟩
      rcases pyIdx_of_le h1 hlen h2 with ⟨tv, htv⟩
      simp only [format_pinyin]
      rw [if_neg hemp, hvm]
      simp [hrow, htv, hcolor]
  · intro s t h
    have hnil : (replaceUU s).filter (fun c => isVowel (charLower c)) = [] :=
      List.filter_eq_nil.mpr (by intro a ha; simp [h a ha])
    simp [format_pinyin, hnil]

/-- Witness for C8 at concrete inputs: pinyin_with_tone is defined at huang
with tone 3, returns the vowel-free syllable xyz unchanged even at the
out-of-domain tone 7, format_pinyin is defined at ma with tone 2, and
format_pinyin returns vowel-free xyz unchanged at tone 9. -/
theorem C8_romanizers_total_witness :
    (pinyin_with_tone "huang".data 3).isSome = true
    ∧ pinyin_with_tone "xyz".data 7 = some (replaceUU "xyz".data)
    ∧ (format_pinyin "ma".data 2).isSome = true
    ∧ format_pinyin "xyz".data 9 = some (replaceUU "xyz".data) :=
  ⟨C8_romanizers_total.1 "huang".data 3 (Or.inr (Or.inr (by omega))),
   C8_romanizers_total.2.1 "xyz".data 7 (by decide),
   C8_romanizers_total.2.2.1 "ma".data 2 (by decide) (by decide),
   C8_romanizers_total.2.2.2 "xyz".data 9 (by decide)⟩

/-- C8 fails as stated for format_pinyin: on the syllable ma the declared
neutral tones raise rather than return: tone 5 indexes past the end of the
tone-mark row (IndexError) and tone 0, after silently selecting the fourth
tone mark through Python negative indexing, misses the color table
(KeyError); both are modelled by none. -/
theorem C8_format_pinyin_neutral_tones_raise :
    format_pinyin "ma".data 5 = none ∧ format_pinyin "ma".data 0 = none := by
  decide

/-! ## C6: export and re-ingestion round-trip -/

theorem trimLeft_eq_self {l : List Char}
    (h : ∀ c, l.head? = some c → isSpace c = false) : trimLeft l = l := by
  cases l with
  | nil => rfl
  | cons c rest =>
    have := h c rfl
    simp [trimLeft, List.dropWhile_cons, this]

theorem trimRight_eq_self {l : List Char}
    (h : ∀ c, l.getLast? = some c → isSpace c = false) : trimRight l = l := by
  unfold trimRight
  rw [trimLeft_eq_self, List.reverse_reverse]
  intro c hc
  rw [List.head?_reverse] at hc
  exact h c hc

theorem strip_eq_self {l : List Char}
    (hh : ∀ c, l.head? = some c → isSpace c = false)
    (hl : ∀ c, l.getLast? = some c → isSpace c = false) : strip l = l := by
  unfold strip
  rw [trimLeft_eq_self hh, trimRight_eq_self hl]

theorem splitTab_ne_nil (l : List Char) : splitTab l ≠ [] := by
  cases l with
  | nil => simp [splitTab]
  | cons c rest =>
    simp only [splitTab]
    cases splitTab rest with
    | nil => simp
    | cons h t =>
      by_cases hc : (c == '\t') = true <;> simp [hc]

theorem splitTab_no_tab {f : List Char} (h : '\t' ∉ f) : splitTab f = [f] := by
  induction f with
  | nil => rfl
  | cons c rest ih =>
    have hc : c ≠ '\t' := fun hc => h (hc ▸ List.mem_cons_self c rest)
    have hrest : '\t' ∉ rest := fun hr => h (List.mem_cons_of_mem c hr)
    simp only [splitTab, ih hrest]
    simp [hc]

theorem splitTab_append_tab {f z : List Char} (h : '\t' ∉ f) :
    splitTab (f ++ '\t' :: z) = f :: splitTab z := by
  induction f with
  | nil =>
    simp only [List.nil_append, splitTab]
    cases hz : splitTab z with
    | nil => exact absurd hz (splitTab_ne_nil z)
    | cons a b => simp
  | cons c rest ih =>
    have hc : c ≠ '\t' := fun hc => h (hc ▸ List.mem_cons_self c rest)
    have hrest : '\t' ∉ rest := fun hr => h (List.mem_cons_of_mem c hr)
    have h2 := ih hrest
    show splitTab (c :: (rest ++ '\t' :: z)) = (c :: rest) :: splitTab z
    rw [splitTab, h2]
    simp [hc]

theorem splitTab_tabJoin {fs : List (List Char)} (hne : fs ≠ [])
    (htab : ∀ f ∈ fs, '\t' ∉ f) : splitTab (tabJoin fs) = fs := by
  induction fs with
  | nil => exact absurd rfl hne
  | cons f fs ih =>
    cases fs with
    | nil => exact splitTab_no_tab (htab f (List.mem_cons_self f []))
    | cons g gs =>
      have h1 : tabJoin (f :: g :: gs) = f ++ '\t' :: tabJoin (g :: gs) := rfl
      rw [h1, splitTab_append_tab (htab f (List.mem_cons_self f (g :: gs)))]
      rw [ih (by simp) (fun x hx => htab x (List.mem_cons_of_mem f hx))]

theorem getLast?_tabJoin_concat (fs : List (List Char)) {g : List Char} (hg : g ≠ []) :
    (tabJoin (fs ++ [g])).getLast? = g.getLast? := by
  induction fs with
  | nil => rfl
  | cons f fs ih =>
    have hne2 : tabJoin (fs ++ [g]) ≠ [] := by
      intro hnil
      have := ih
      rw [hnil] at this
      simp only [List.getLast?_nil] at this
      rcases List.exists_cons_of_ne_nil hg with ⟨c, g', rfl⟩
      rw [List.getLast?_eq_getLast_of_ne_nil (by simp)] at this
      exact Option.noConfusion this
    have h1 : tabJoin ((f :: fs) ++ [g]) = f ++ '\t' :: tabJoin (fs ++ [g]) := by
      cases fs <;> rfl
    rw [h1, List.getLast?_append_of_ne_nil _ (by simp)]
    have h2 : ('\t' :: tabJoin (fs ++ [g])) = ['\t'] ++ tabJoin (fs ++ [g]) := rfl
    rw [h2, List.getLast?_append_of_ne_nil _ hne2]
    exact ih

/-- C6 (amended): a record whose 17 exported fields contain no tab and no
newline, whose word is non-empty and does not begin with a whitespace
character, and whose final field (the sentence romanization) is non-empty
and does not end with a whitespace character, re-parses to a note whose 8
original fields equal those of the exported record. The extra conditions are
forced by the loader, which strips all leading and trailing whitespace
(including tabs) from the line before splitting it. -/
theorem C6_export_reingest_roundtrip (n : AnkiNote)
    (htab : ∀ f ∈ outputFields n, '\t' ∉ f ∧ '\n' ∉ f)
    (hw : ∃ c w', n.word = c :: w' ∧ isSpace c = false)
    (hlast : ∃ c, n.example_sentence_pinyin.getLast? = some c ∧ isSpace c = false) :
    ∃ m, load_line (outputLine n) = some m ∧
      m.word = n.word ∧ m.definitions_1 = n.definitions_1 ∧
      m.definitions_2 = n.definitions_2 ∧ m.example_sentence = n.example_sentence ∧
      m.sentence_translation = n.sentence_translation ∧ m.word_audio = n.word_audio ∧
      m.sentence_audio = n.sentence_audio ∧ m.image = n.image := by
  rcases hw with ⟨c0, w', hw, hc0⟩
  rcases hlast with ⟨cL, hcL, hcLs⟩
  have hfields : outputFields n =
      [n.word, n.definitions_1, n.definitions_2, n.example_sentence,
       n.sentence_translation, n.word_audio, n.sentence_audio, n.image,
       n.cloze_sentence, n.cloze_sentence_pinyin, n.scrambled_sentence,
       n.scrambled_sentence_pinyin, n.reconstructed_sentence,
       n.reconstructed_sentence_pinyin, n.prompt, n.word_pinyin] ++
      [n.example_sentence_pinyin] := rfl
  have hhead : (outputLine n).head? = some c0 := by
    have h1 : outputLine n = n.word ++ '\t' :: tabJoin (outputFields n).tail := by
      rfl
    rw [h1, hw]
    rfl
  have hLne : n.example_sentence_pinyin ≠ [] := by
    intro hnil
    rw [hnil] at hcL
    exact Option.noConfusion hcL
  have hgetLast : (outputLine n).getLast? = some cL := by
    have h1 : (outputLine n).getLast? = n.example_sentence_pinyin.getLast? := by
      unfold outputLine
      rw [hfields]
      exact getLast?_tabJoin_concat _ hLne
    rw [h1, hcL]
  have hstrip : strip (outputLine n) = outputLine n := by
    apply strip_eq_self
    · intro c hc
      rw [hhead] at hc
      cases hc
      exact hc0
    · intro c hc
      rw [hgetLast] at hc
      cases hc
      exact hcLs
  have hne : outputLine n ≠ [] := by
    intro hnil
    rw [hnil] at hhead
    exact Option.noConfusion hhead
  have hsplit : splitTab (outputLine n) = outputFields n :=
    splitTab_tabJoin (by rw [hfields]; simp) (fun f hf => (htab f hf).1)
  have hempty : (outputLine n).isEmpty = false := by
    rw [Bool.eq_false_iff]
    simpa [List.isEmpty_iff] using hne
  refine
    ⟨{ word := n.word, definitions_1 := n.definitions_1,
       definitions_2 := n.definitions_2, example_sentence := n.example_sentence,
       sentence_translation := n.sentence_translation, word_audio := n.word_audio,
       sentence_audio := n.sentence_audio, image := n.image,
       selected_card_types := suggest_card_types
         { word := n.word, definitions_1 := n.definitions_1,
           definitions_2 := n.definitions_2, example_sentence := n.example_sentence,
           sentence_translation := n.sentence_translation, word_audio := n.word_audio,
           sentence_audio := n.sentence_audio, image := n.image } },
     ?_, rfl, rfl, rfl, rfl, rfl, rfl, rfl, rfl⟩
  simp only [load_line, hstrip, hempty, Bool.false_eq_true, if_false, hsplit, outputFields]
  rfl

/-- Witness for C6 at a concrete record with all 17 fields non-empty. -/
theorem C6_export_reingest_witness :
    ∃ m, load_line (outputLine
      { word := "爸".data, definitions_1 := "dad".data, definitions_2 := "pa".data,
        example_sentence := "我爸爸在家。".data, sentence_translation := "x".data,
        word_audio := "a.mp3".data, sentence_audio := "s.mp3".data,
        image := "i.jpg".data, cloze_sentence := "c".data,
        cloze_sentence_pinyin := "cp".data, scrambled_sentence := "s".data,
        scrambled_sentence_pinyin := "sp".data, reconstructed_sentence := "r".data,
        reconstructed_sentence_pinyin := "rp".data, prompt := "p".data,
        word_pinyin := "wp".data, example_sentence_pinyin := "ba".data }) = some m ∧
      m.word = "爸".data ∧ m.definitions_1 = "dad".data ∧
      m.definitions_2 = "pa".data ∧ m.example_sentence = "我爸爸在家。".data ∧
      m.sentence_translation = "x".data ∧ m.word_audio = "a.mp3".data ∧
      m.sentence_audio = "s.mp3".data ∧ m.image = "i.jpg".data :=
  C6_export_reingest_roundtrip _ (by decide) ⟨'爸', [], rfl, by decide⟩
    ⟨'a', by decide, by decide⟩

/-- C6 fails as stated: a record whose word begins with an ordinary space
(no tab, no newline anywhere) re-parses with the space lost, because the
loader strips the whole line before splitting; the remaining original fields
survive but the word differs. -/
theorem C6_leading_space_breaks_roundtrip :
    (load_line (outputLine
      { word := " a".data,
        example_sentence_pinyin := "b".data })).map AnkiNote.word = some "a".data
    ∧ " a".data ≠ "a".data := by
  decide

/-! ## C7: whitespace normalization lemmas -/

theorem WsOk_infix {l u m v : List Char} (h : l = u ++ m ++ v) (hw : WsOk l) :
    WsOk m := by
  rcases hw with ⟨hb, hn⟩
  constructor
  · intro c hc hs
    exact hb c (by rw [h]; simp [hc]) hs
  · intro p a b suf hm ha hsb
    exact hn (u ++ p) a b (suf ++ v) (by rw [h, hm]; simp) ha hsb

theorem WsOk_reverse {l : List Char} (hw : WsOk l) : WsOk l.reverse := by
  rcases hw with ⟨hb, hn⟩
  constructor
  · intro c hc hs
    exact hb c (List.mem_reverse.mp hc) hs
  · intro p a b suf hm ha hsb
    have hl : l = suf.reverse ++ b :: a :: p.reverse := by
      have := congrArg List.reverse hm
      rw [List.reverse_reverse] at this
      rw [this]
      simp
    exact hn suf.reverse b a p.reverse hl hsb ha

theorem NoAdjSpace_nil : NoAdjSpace [] := by
  intro p a b suf h
  exact absurd h (by simp)

theorem NoAdjSpace_singleton (c : Char) : NoAdjSpace [c] := by
  intro p a b suf h _ _
  rcases p with _ | ⟨x, p⟩ <;> simp at h

theorem NoAdjSpace_cons_of {c : Char} {l : List Char} (hl : NoAdjSpace l)
    (hh : ∀ b, l.head? = some b → isSpace c = true → isSpace b = true → False) :
    NoAdjSpace (c :: l) := by
  intro p a b suf h ha hb
  cases p with
  | nil =>
    simp only [List.nil_append, List.cons.injEq] at h
    rcases h with ⟨rfl, rfl⟩
    exact hh b rfl ha hb
  | cons x p' =>
    simp only [List.cons_append, List.cons.injEq] at h
    exact hl p' a b suf h.2 ha hb

theorem collapseWs_singleton (c : Char) :
    collapseWs [c] = if isSpace c then [' '] else [c] := rfl

theorem collapseWs_cons_cons (c c2 : Char) (rest2 : List Char) :
    collapseWs (c :: c2 :: rest2) =
      if isSpace c && isSpace c2 then collapseWs (c2 :: rest2)
      else (if isSpace c then ' ' else c) :: collapseWs (c2 :: rest2) := rfl

theorem collapseWs_head_nonspace {c : Char} {rest : List Char}
    (hc : isSpace c = false) : (collapseWs (c :: rest)).head? = some c := by
  cases rest with
  | nil => rw [collapseWs_singleton]; simp [hc]
  | cons c2 rest2 => rw [collapseWs_cons_cons]; simp [hc]

theorem collapseWs_wsOk (l : List Char) : WsOk (collapseWs l) := by
  induction l with
  | nil => exact ⟨fun c hc => absurd hc (List.not_mem_nil c), NoAdjSpace_nil⟩
  | cons c rest ih =>
    cases rest with
    | nil =>
      rw [collapseWs_singleton]
      by_cases hc : isSpace c = true
      · rw [if_pos hc]
        exact ⟨by intro x hx hs; simpa using hx, NoAdjSpace_singleton _⟩
      · rw [if_neg hc]
        constructor
        · intro x hx hs
          simp only [List.mem_singleton] at hx
          subst hx
          exact absurd hs hc
        · exact NoAdjSpace_singleton _
    | cons c2 rest2 =>
      by_cases hcc : (isSpace c && isSpace c2) = true
      · rw [collapseWs_cons_cons, if_pos hcc]
        exact ih
      · rw [collapseWs_cons_cons, if_neg hcc]
        rcases ih with ⟨ihb, ihn⟩
        constructor
        · intro x hx hs
          rcases List.mem_cons.mp hx with rfl | hx'
          · by_cases hc : isSpace c = true
            · rw [if_pos hc]
            · rw [if_neg hc] at hs
              exact absurd hs hc
          · exact ihb x hx' hs
        · apply NoAdjSpace_cons_of ihn
          intro b hb hsa hsb
          by_cases hc : isSpace c = true
          · have hc2 : isSpace c2 = false := by
              cases h2 : isSpace c2
              · rfl
              · exact absurd (by simp [hc, h2]) hcc
            rw [collapseWs_head_nonspace hc2] at hb
            cases hb
            rw [hc2] at hsb
            exact Bool.noConfusion hsb
          · rw [if_neg hc] at hsa
            exact absurd hsa hc

theorem collapseWs_eq_self {l : List Char} (hw : WsOk l) : collapseWs l = l := by
  induction l with
  | nil => rfl
  | cons c rest ih =>
    cases rest with
    | nil =>
      rw [collapseWs_singleton]
      by_cases hc : isSpace c = true
      · rw [if_pos hc, hw.1 c (by simp) hc]
      · rw [if_neg hc]
    | cons c2 rest2 =>
      have h1 : isSpace c = true → isSpace c2 = true → False :=
        hw.2 [] c c2 rest2 rfl
      have hcc : ¬ ((isSpace c && isSpace c2) = true) := by
        intro hcc'
        rw [Bool.and_eq_true] at hcc'
        exact h1 hcc'.1 hcc'.2
      have htail : WsOk (c2 :: rest2) :=
        WsOk_infix (show c :: c2 :: rest2 = [c] ++ (c2 :: rest2) ++ [] by simp) hw
      rw [collapseWs_cons_cons, if_neg hcc, ih htail]
      by_cases hc : isSpace c = true
      · rw [if_pos hc, hw.1 c (by simp) hc]
      · rw [if_neg hc]

/-! ## Trim and strip lemmas -/

theorem contains_iff {l : List Char} {a : Char} : l.contains a = true ↔ a ∈ l := by
  simp [List.contains, List.elem_iff]

theorem trimLeft_head {l : List Char} {c : Char}
    (h : (trimLeft l).head? = some c) : isSpace c = false := by
  induction l with
  | nil => exact Option.noConfusion h
  | cons x rest ih =>
    by_cases hx : isSpace x = true
    · rw [trimLeft, List.dropWhile_cons, if_pos hx] at h
      exact ih h
    · rw [trimLeft, List.dropWhile_cons, if_neg hx] at h
      cases h
      exact Bool.eq_false_iff.mpr hx

theorem trimRight_decomp (l : List Char) :
    ∃ w, l = trimRight l ++ w ∧ ∀ c ∈ w, isSpace c = true := by
  refine ⟨(l.reverse.takeWhile isSpace).reverse, ?_, ?_⟩
  · rw [show trimRight l ++ (l.reverse.takeWhile isSpace).reverse =
        (l.reverse.takeWhile isSpace ++ l.reverse.dropWhile isSpace).reverse from by
      rw [List.reverse_append]; rfl]
    rw [List.takeWhile_append_dropWhile, List.reverse_reverse]
  · intro c hc
    exact List.mem_takeWhile_imp (List.mem_reverse.mp hc)

theorem strip_trimmed (l : List Char) : Trimmed (strip l) := by
  constructor
  · intro c hc
    rcases trimRight_decomp (trimLeft l) with ⟨w, hw, _⟩
    have hw' : trimLeft l = strip l ++ w := by
      rw [show strip l = trimRight (trimLeft l) from rfl]
      exact hw
    rcases hh : strip l with _ | ⟨d, t⟩
    · rw [hh] at hc
      exact Option.noConfusion hc
    · rw [hh] at hc
      have hdc : d = c := by simpa using hc
      subst hdc
      rw [hh] at hw'
      exact trimLeft_head (show (trimLeft l).head? = some d by rw [hw']; rfl)
  · intro c hc
    have hh : (strip l).getLast? = (trimLeft (trimLeft l).reverse).reverse.getLast? := rfl
    rw [hh, List.getLast?_reverse] at hc
    exact trimLeft_head hc

theorem strip_eq_of_trimmed {l : List Char} (h : Trimmed l) : strip l = l :=
  strip_eq_self h.1 h.2

theorem strip_idem (l : List Char) : strip (strip l) = strip l :=
  strip_eq_of_trimmed (strip_trimmed l)

theorem mem_trimLeft {l : List Char} {c : Char} (h : c ∈ trimLeft l) : c ∈ l :=
  List.Sublist.mem h (List.dropWhile_sublist isSpace)

theorem mem_trimRight {l : List Char} {c : Char} (h : c ∈ trimRight l) : c ∈ l := by
  unfold trimRight at h
  rw [List.mem_reverse] at h
  exact List.mem_reverse.mp (mem_trimLeft h)

theorem mem_strip {l : List Char} {c : Char} (h : c ∈ strip l) : c ∈ l :=
  mem_trimLeft (mem_trimRight h)

theorem mem_collapseWs {l : List Char} {c : Char} (h : c ∈ collapseWs l) :
    c = ' ' ∨ c ∈ l := by
  induction l with
  | nil => exact absurd h (List.not_mem_nil c)
  | cons x rest ih =>
    cases rest with
    | nil =>
      rw [collapseWs_singleton] at h
      by_cases hx : isSpace x = true
      · rw [if_pos hx] at h
        simp only [List.mem_singleton] at h
        exact Or.inl h
      · rw [if_neg hx] at h
        simp only [List.mem_singleton] at h
        exact Or.inr (by rw [h]; exact List.mem_cons_self x [])
    | cons x2 rest2 =>
      rw [collapseWs_cons_cons] at h
      by_cases hxx : (isSpace x && isSpace x2) = true
      · rw [if_pos hxx] at h
        rcases ih h with h' | h'
        · exact Or.inl h'
        · exact Or.inr (List.mem_cons_of_mem x h')
      · rw [if_neg hxx] at h
        rcases List.mem_cons.mp h with rfl | h'
        · by_cases hx : isSpace x = true
          · rw [if_pos hx]
            exact Or.inl rfl
          · rw [if_neg hx]
            exact Or.inr (List.mem_cons_self x _)
        · rcases ih h' with h'' | h''
          · exact Or.inl h''
          · exact Or.inr (List.mem_cons_of_mem x h'')

theorem matchMarker_drop {ps : List (List Char)} {s r : List Char}
    (h : matchMarker ps s = some r) : ∃ n, r = s.drop n := by
  induction ps with
  | nil => exact Option.noConfusion h
  | cons p ps ih =>
    by_cases hp : p.isPrefixOf (s.map charLower) = true
    · rw [matchMarker, if_pos hp] at h
      cases h
      exact ⟨p.length, rfl⟩
    · rw [matchMarker, if_neg hp] at h
      exact ih h

theorem mem_stripMarker {s : List Char} {c : Char} (h : c ∈ stripMarker s) : c ∈ s := by
  unfold stripMarker at h
  cases hm : matchMarker PREFIX_MARKERS s with
  | none =>
    rw [hm] at h
    exact h
  | some rest =>
    rw [hm] at h
    rcases matchMarker_drop hm with ⟨n, rfl⟩
    exact List.Sublist.mem (List.Sublist.mem h (List.dropWhile_sublist isSpace))
      (List.drop_sublist n s)

theorem mem_commaStep {t : List Char} {c : Char} (h : c ∈ commaStep t) : c ∈ t := by
  unfold commaStep at h
  by_cases hct : (t.contains ',') = true
  · rw [if_pos hct] at h
    by_cases hlen : 2 < (strip (t.takeWhile (fun c => !(c == ',')))).length
    · rw [if_pos hlen] at h
      exact List.Sublist.mem (mem_strip h) (List.takeWhile_sublist _)
    · rw [if_neg hlen] at h
      exact h
  · rw [if_neg hct] at h
    exact h

theorem mem_removeStars {s : List Char} {c : Char} (h : c ∈ removeStars s) : c ∈ s :=
  (List.mem_filter.mp h).1

theorem star_not_mem_removeStars (s : List Char) : '*' ∉ removeStars s := by
  intro h
  have := (List.mem_filter.mp h).2
  simp at this

theorem removeStars_eq_self {s : List Char} (h : '*' ∉ s) : removeStars s = s := by
  apply List.filter_eq_self.mpr
  intro a ha
  by_cases hae : a = '*'
  · exact absurd (hae ▸ ha) h
  · simp [hae]

/-! ## Preservation of the whitespace invariant -/

theorem WsOk_trimLeft {l : List Char} (h : WsOk l) : WsOk (trimLeft l) :=
  WsOk_infix (show l = l.takeWhile isSpace ++ trimLeft l ++ [] by
    rw [List.append_nil, trimLeft, List.takeWhile_append_dropWhile]) h

theorem WsOk_trimRight {l : List Char} (h : WsOk l) : WsOk (trimRight l) :=
  WsOk_reverse (WsOk_trimLeft (WsOk_reverse h))

theorem WsOk_strip {l : List Char} (h : WsOk l) : WsOk (strip l) :=
  WsOk_trimRight (WsOk_trimLeft h)

theorem WsOk_takeWhile {l : List Char} (p : Char → Bool) (h : WsOk l) :
    WsOk (l.takeWhile p) :=
  WsOk_infix (show l = [] ++ l.takeWhile p ++ l.dropWhile p by
    rw [List.nil_append, List.takeWhile_append_dropWhile]) h

theorem WsOk_drop {l : List Char} (n : Nat) (h : WsOk l) : WsOk (l.drop n) :=
  WsOk_infix (show l = l.take n ++ l.drop n ++ [] by
    rw [List.append_nil, List.take_append_drop]) h

theorem WsOk_stripMarker {s : List Char} (h : WsOk s) : WsOk (stripMarker s) := by
  unfold stripMarker
  cases hm : matchMarker PREFIX_MARKERS s with
  | none => exact h
  | some rest =>
    rcases matchMarker_drop hm with ⟨n, rfl⟩
    exact WsOk_trimLeft (WsOk_drop n h)

theorem WsOk_commaStep {t : List Char} (h : WsOk t) : WsOk (commaStep t) := by
  unfold commaStep
  by_cases hct : (t.contains ',') = true
  · rw [if_pos hct]
    by_cases hlen : 2 < (strip (t.takeWhile (fun c => !(c == ',')))).length
    · rw [if_pos hlen]
      exact WsOk_strip (WsOk_takeWhile _ h)
    · rw [if_neg hlen]
      exact h
  · rw [if_neg hct]
    exact h

theorem getLast?_of_suffix {u v l : List Char} {c : Char} (h : l = u ++ v)
    (hv : v.getLast? = some c) : l.getLast? = some c := by
  have hvne : v ≠ [] := by
    intro hnil
    rw [hnil] at hv
    exact Option.noConfusion hv
  rw [h, List.getLast?_append_of_ne_nil u hvne]
  exact hv

theorem stripMarker_trimmed {s : List Char} (h : Trimmed s) :
    Trimmed (stripMarker s) := by
  unfold stripMarker
  cases hm : matchMarker PREFIX_MARKERS s with
  | none => exact h
  | some rest =>
    rcases matchMarker_drop hm with ⟨n, rfl⟩
    constructor
    · intro c hc
      exact trimLeft_head hc
    · intro c hc
      apply h.2 c
      apply getLast?_of_suffix (show s = s.take n ++ s.drop n by
        rw [List.take_append_drop])
      exact getLast?_of_suffix (show s.drop n = (s.drop n).takeWhile isSpace ++
        trimLeft (s.drop n) by rw [trimLeft, List.takeWhile_append_dropWhile]) hc

/-! ## C7: conditional idempotence of the text cleaner -/

/-- C7 (amended): the cleaner is idempotent on every input that contains no
asterisk and whose cleaned form does not again begin with a removable
part-of-speech or Audio marker. The two conditions are forced: deleting
asterisks can merge the surrounding spaces into a run that only a second pass
collapses, and the anchored marker prefix is removed only once per pass, so a
stacked marker survives the first pass and disappears in the second. -/
theorem C7_clean_idem_conditional (x : List Char) (hstar : '*' ∉ x)
    (hpre : stripMarker (clean_meaning_text x) = clean_meaning_text x) :
    clean_meaning_text (clean_meaning_text x) = clean_meaning_text x := by
  have hstar2 : '*' ∉ stripMarker (strip (collapseWs x)) := by
    intro h
    rcases mem_collapseWs (mem_strip (mem_stripMarker h)) with h' | h'
    · exact absurd h' (by decide)
    · exact hstar h'
  have h3 : removeStars (stripMarker (strip (collapseWs x))) =
      stripMarker (strip (collapseWs x)) := removeStars_eq_self hstar2
  have hclean : clean_meaning_text x =
      strip (commaStep (stripMarker (strip (collapseWs x)))) := by
    unfold clean_meaning_text
    rw [h3]
  have htrim2 : Trimmed (stripMarker (strip (collapseWs x))) :=
    stripMarker_trimmed (strip_trimmed _)
  have hws2 : WsOk (stripMarker (strip (collapseWs x))) :=
    WsOk_stripMarker (WsOk_strip (collapseWs_wsOk x))
  have hwsr : WsOk (clean_meaning_text x) := by
    rw [hclean]
    exact WsOk_strip (WsOk_commaStep hws2)
  have htrimr : Trimmed (clean_meaning_text x) := by
    rw [hclean]
    exact strip_trimmed _
  have hstarr : '*' ∉ clean_meaning_text x := by
    rw [hclean]
    intro h
    have hx : '*' ∈ stripMarker (strip (collapseWs x)) :=
      mem_commaStep (mem_strip h)
    rw [← h3] at hx
    exact star_not_mem_removeStars _ hx
  have hcsr : commaStep (clean_meaning_text x) = clean_meaning_text x := by
    by_cases hct : ((stripMarker (strip (collapseWs x))).contains ',') = true
    · by_cases hlen : 2 < (strip ((stripMarker (strip (collapseWs x))).takeWhile
          (fun c => !(c == ',')))).length
      · have hcs : commaStep (stripMarker (strip (collapseWs x))) =
            strip ((stripMarker (strip (collapseWs x))).takeWhile
              (fun c => !(c == ','))) := by
          unfold commaStep
          rw [if_pos hct, if_pos hlen]
        have hrm : clean_meaning_text x =
            strip ((stripMarker (strip (collapseWs x))).takeWhile
              (fun c => !(c == ','))) := by
          rw [hclean, hcs, strip_idem]
        have hnomem : ',' ∉ clean_meaning_text x := by
          rw [hrm]
          intro h
          have h2 := List.mem_takeWhile_imp (mem_strip h)
          simp at h2
        unfold commaStep
        rw [if_neg (fun hcon => hnomem (contains_iff.mp hcon))]
      · have hcs : commaStep (stripMarker (strip (collapseWs x))) =
            stripMarker (strip (collapseWs x)) := by
          unfold commaStep
          rw [if_pos hct, if_neg hlen]
        have hr2 : clean_meaning_text x = stripMarker (strip (collapseWs x)) := by
          rw [hclean, hcs, strip_eq_of_trimmed htrim2]
        rw [hr2, hcs]
    · have hcs : commaStep (stripMarker (strip (collapseWs x))) =
          stripMarker (strip (collapseWs x)) := by
        unfold commaStep
        rw [if_neg hct]
      have hr2 : clean_meaning_text x = stripMarker (strip (collapseWs x)) := by
        rw [hclean, hcs, strip_eq_of_trimmed htrim2]
      rw [hr2, hcs]
  rw [show clean_meaning_text (clean_meaning_text x) =
      strip (commaStep (removeStars (stripMarker (strip
        (collapseWs (clean_meaning_text x)))))) from rfl]
  rw [collapseWs_eq_self hwsr, strip_eq_of_trimmed htrimr, hpre,
    removeStars_eq_self hstarr, hcsr, strip_eq_of_trimmed htrimr]

/-- Witness for C7 at a concrete input containing a comma. -/
theorem C7_clean_idem_witness :
    clean_meaning_text (clean_meaning_text "hello, world".data) =
      clean_meaning_text "hello, world".data :=
  C7_clean_idem_conditional "hello, world".data (by decide) (by decide)

/-- C7 fails as stated: cleaning the text a-space-asterisk-space-b removes
the asterisk and leaves two adjacent spaces, which only the second pass
collapses, so clean of clean differs from clean. -/
theorem C7_clean_not_idempotent :
    clean_meaning_text "a * b".data = "a  b".data
    ∧ clean_meaning_text "a  b".data = "a b".data
    ∧ "a  b".data ≠ "a b".data := by
  decide

end PinyinAnki
